import Mathlib

/-!
Verification of the pyth-network/program-admin account codec and
reconciliation engine.

This file gives a shallow embedding, in Lean 4, of the pure core of the
`program_admin` package:

* `program_admin/util.py` — `sort_mapping_account_keys`,
  `apply_overrides`, `encode_product_metadata`;
* `program_admin/parsing.py` — `parse_mapping_data`, `parse_product_data`,
  `parse_price_info`, `parse_price_data`, `parse_data`;
* `program_admin/__init__.py` — the transaction batching loop of
  `send_transaction` and the instruction diffing of
  `sync_price_instructions`.

Modelling conventions:

* Byte buffers are `List ℕ` (each entry a byte value); multi-byte fields
  are little-endian, exactly as the `construct` `Int*ul`/`Int*sl` codecs
  read them.
* Solana public keys appear in two roles.  Inside binary account records
  they are raw 32-byte strings and are modelled as `List ℕ` slices.  In
  the reconciliation code they are opaque identifiers compared only for
  equality, and are modelled as `ℕ`, with `0` standing for the all-zero
  key `PublicKey(0)`.
* Python dictionaries are modelled as association lists in insertion
  order; `dict.get` / `in` become `List.lookup`, and `d[k] = v` becomes
  an insert-or-overwrite that keeps the first position of an existing
  key, which is CPython's documented behaviour.
* Python `raise` is modelled with `Except String`; a function that never
  raises on the inputs a theorem is about is modelled as total.
* Out-of-range byte reads (`data[i]` / `data[i:j]`): Python raises
  `IndexError` for a scalar read past the end and silently truncates a
  slice read.  The model uses `List.getD` (default `0`) and `take`/`drop`;
  all theorems below only perform reads that stay in bounds, where the
  two behaviours agree.
-/

/-! ## Byte-level helpers -/

/-- Byte buffers: each element is one byte value. -/
abbrev Bytes := List ℕ

/-- Scalar read `data[i]` (in-bounds uses only). -/
def byteAt (data : Bytes) (i : ℕ) : ℕ := data.getD i 0

/-- Slice read `data[p : p + n]`. -/
def byteSlice (data : Bytes) (p n : ℕ) : Bytes := (data.drop p).take n

/-- Value of a little-endian byte string. -/
def leNat (l : Bytes) : ℕ := l.foldr (fun b acc => b + 256 * acc) 0

/-- `Int32ul.parse(data[p:])` — little-endian unsigned 32-bit read. -/
def readU32 (data : Bytes) (p : ℕ) : ℕ := leNat (byteSlice data p 4)

/-- `Int64ul.parse(data[p:])` — little-endian unsigned 64-bit read. -/
def readU64 (data : Bytes) (p : ℕ) : ℕ := leNat (byteSlice data p 8)

/-- `Int8ul.parse(data[p:])` — single-byte read. -/
def readU8 (data : Bytes) (p : ℕ) : ℕ := byteAt data p

/-- `Int32sl.parse(data[p:])` — little-endian signed 32-bit read. -/
def readI32 (data : Bytes) (p : ℕ) : ℤ :=
  let u := readU32 data p
  if u < 2 ^ 31 then (u : ℤ) else (u : ℤ) - 2 ^ 32

/-- `Int64sl.parse(data[p:])` — little-endian signed 64-bit read. -/
def readI64 (data : Bytes) (p : ℕ) : ℤ :=
  let u := readU64 data p
  if u < 2 ^ 63 then (u : ℤ) else (u : ℤ) - 2 ^ 64

/-! ## Mapping accounts and the chain resolver

From `program_admin/util.py`, `sort_mapping_account_keys` (lines 71-107).
Public keys are modelled as `ℕ`; the zero key `PublicKey(0)` is `0`.
Only the two fields the resolver touches are kept. -/

/-- A mapping account as seen by the resolver: its own public key and the
`next_mapping_account_key` field of its decoded data. -/
structure MappingAccountK where
  public_key : ℕ
  next_mapping_account_key : ℕ
deriving DecidableEq, Repr

/-- The `previous_keys` dict built by the first loop of
`sort_mapping_account_keys`: `previous_keys[next_key] = this_key`, later
iterations overwriting earlier ones, then `previous_keys.get(k)`. -/
def prevKeysGet (accounts : List MappingAccountK) (k : ℕ) : Option ℕ :=
  ((accounts.filter (fun a => a.next_mapping_account_key = k)).getLast?).map
    MappingAccountK.public_key

/-- The `last_key` variable after the first loop: the last account in
iteration order whose next key is the zero key, if any. -/
def lastKeyOf (accounts : List MappingAccountK) : Option ℕ :=
  ((accounts.filter (fun a => a.next_mapping_account_key = 0)).getLast?).map
    MappingAccountK.public_key

/-- One step of the second loop: `current = previous_keys[current]` when
`previous_keys.get(current)` is truthy, else `current` is left unchanged. -/
def walkStep (prev : ℕ → Option ℕ) (c : ℕ) : ℕ :=
  (prev c).getD c

/-- The second loop of `sort_mapping_account_keys`: it runs exactly `n`
iterations (one `insert(0, current)` each, until `len(sorted_keys)` equals
`len(accounts)`), prepending the current key and then stepping. -/
def walkChain (prev : ℕ → Option ℕ) : ℕ → ℕ → List ℕ
  | 0, _ => []
  | n + 1, c => walkChain prev n (walkStep prev c) ++ [c]

/-- `sort_mapping_account_keys` from `program_admin/util.py`.  Returns
`.error` exactly where Python raises `RuntimeError("The linked list has no
end")`, i.e. when no account has the zero next key. -/
def sortMappingAccountKeys (accounts : List MappingAccountK) :
    Except String (List ℕ) :=
  if accounts.isEmpty then .ok []
  else
    match lastKeyOf accounts with
    | none => .error "The linked list has no end"
    | some lastKey =>
        .ok (walkChain (prevKeysGet accounts) accounts.length lastKey)

/-! ## Overrides

From `program_admin/util.py`, `apply_overrides` (lines 110-124).
`ReferencePermissions = Dict[str, Dict[str, List[str]]]` and
`ReferenceOverrides = Dict[str, Dict[str, bool]]` become association
lists in insertion order. -/

/-- `ReferencePermissions`: symbol → account type → publisher names. -/
abbrev RefPermissions := List (String × List (String × List String))

/-- `ReferenceOverrides`: network → symbol → enabled. -/
abbrev RefOverrides := List (String × List (String × Bool))

/-- Body of the `apply_overrides` loop for one `(key, value)` item:
`if key in network_overrides and not network_overrides[key]` empties every
account type's publisher list, else the item is kept as is. -/
def applyOverridesEntry (networkOverrides : List (String × Bool))
    (kv : String × List (String × List String)) :
    String × List (String × List String) :=
  if networkOverrides.lookup kv.1 = some false then
    (kv.1, kv.2.map (fun av => (av.1, ([] : List String))))
  else kv

/-- `apply_overrides` from `program_admin/util.py`. -/
def applyOverrides (refPermissions : RefPermissions)
    (refOverrides : RefOverrides) (network : String) : RefPermissions :=
  let networkOverrides := (refOverrides.lookup network).getD []
  refPermissions.map (applyOverridesEntry networkOverrides)

/-! ## Product metadata codec

`encode_product_metadata` from `program_admin/util.py` (lines 57-68) and
the metadata-decoding loop of `parse_product_data` from
`program_admin/parsing.py` (lines 54-76).  A Python `str` is represented
by its UTF-8 byte string (`key.encode("utf8")` / `bytes.decode()` are
mutually inverse on the strings involved), so metadata maps become
association lists of byte strings in insertion order. -/

/-- Ordered metadata map: UTF-8 key bytes paired with UTF-8 value bytes. -/
abbrev Metadata := List (Bytes × Bytes)

/-- `encode_product_metadata`: for each pair, one length byte, the key
bytes, one length byte, the value bytes.  (Python's
`len(...).to_bytes(1, "little")` raises `OverflowError` above 255; the
round-trip claim restricts keys and values to at most 255 bytes.) -/
def encodeProductMetadata (data : Metadata) : Bytes :=
  (data.map (fun kv => [kv.1.length] ++ kv.1 ++ [kv.2.length] ++ kv.2)).flatten

/-- CPython dict assignment `metadata[key] = value`: an existing key keeps
its position and gets the new value; a new key is appended. -/
def dictSet (m : Metadata) (k v : Bytes) : Metadata :=
  match m with
  | [] => [(k, v)]
  | (k0, v0) :: rest =>
      if k0 = k then (k, v) :: rest else (k0, v0) :: dictSet rest k v

/-- The `while pointer < used_size` loop of `parse_product_data`: read a
key length byte; if it is zero only advance the pointer, else read the key
bytes, a value length byte and the value bytes, and store the pair. -/
def parseMetaLoop (data : Bytes) (usedSize : ℕ) (pointer : ℕ)
    (metadata : Metadata) : Metadata :=
  if h : pointer < usedSize then
    let keyLength := byteAt data pointer
    if keyLength = 0 then parseMetaLoop data usedSize (pointer + 1) metadata
    else
      let key := byteSlice data (pointer + 1) keyLength
      let valueLength := byteAt data (pointer + 1 + keyLength)
      let value := byteSlice data (pointer + 1 + keyLength + 1) valueLength
      parseMetaLoop data usedSize (pointer + 1 + keyLength + 1 + valueLength)
        (dictSet metadata key value)
  else metadata
termination_by usedSize - pointer
decreasing_by all_goals omega

/-- Decoded product account data (`ProductData` in
`program_admin/types.py`). -/
structure ProductData where
  used_size : ℕ
  first_price_account_key : Bytes
  metadata : Metadata
deriving DecidableEq, Repr

/-- `parse_product_data` from `program_admin/parsing.py`. -/
def parseProductData (data : Bytes) : ProductData :=
  let usedSize := readU32 data 12
  { used_size := usedSize
    first_price_account_key := byteSlice data 16 32
    metadata := parseMetaLoop data usedSize 48 [] }

/-! ## Mapping account decoding

`parse_mapping_data` from `program_admin/parsing.py` (lines 38-51). -/

/-- Decoded mapping account data (`MappingData` in
`program_admin/types.py`). -/
structure MappingData where
  used_size : ℕ
  product_count : ℕ
  next_mapping_account_key : Bytes
  product_account_keys : List Bytes
deriving DecidableEq, Repr

/-- `parse_mapping_data` from `program_admin/parsing.py`. -/
def parseMappingData (data : Bytes) : MappingData :=
  let productCount := readU32 data 16
  { used_size := readU32 data 12
    product_count := productCount
    next_mapping_account_key := byteSlice data 24 32
    product_account_keys :=
      (List.range productCount).map (fun i => byteSlice data (56 + i * 32) 32) }

/-! ## Price account decoding

`parse_price_info` and `parse_price_data` from
`program_admin/parsing.py` (lines 79-152). -/

/-- `PriceInfo` from `program_admin/types.py`. -/
structure PriceInfo where
  price : ℤ
  confidence : ℕ
  status : ℕ
  corporate_action : ℕ
  publish_slot : ℕ
deriving DecidableEq, Repr

/-- `parse_price_info`: five fixed-width fields from a 32-byte region. -/
def parsePriceInfo (data : Bytes) : PriceInfo :=
  { price := readI64 data 0
    confidence := readU64 data 8
    status := readU32 data 16
    corporate_action := readU32 data 20
    publish_slot := readU64 data 24 }

/-- `PriceComponent` from `program_admin/types.py`; the publisher key is
the raw 32-byte string. -/
structure PriceComponent where
  publisher_key : Bytes
  aggregate_price : PriceInfo
  latest_price : PriceInfo
deriving DecidableEq, Repr

/-- The component loop of `parse_price_data`: starting at offset 240,
while the buffer is not exhausted read a 32-byte publisher key; an
all-zero key ends the loop (and is not itself recorded), any other key is
followed by two 32-byte `PriceInfo` regions forming one component. -/
def parseComponentsLoop (data : Bytes) (offset : ℕ)
    (acc : List PriceComponent) : List PriceComponent :=
  if h : offset < data.length then
    let publisherKey := byteSlice data offset 32
    if publisherKey = List.replicate 32 0 then acc
    else
      let aggregatePrice := parsePriceInfo (byteSlice data (offset + 32) 32)
      let latestPrice := parsePriceInfo (byteSlice data (offset + 64) 32)
      parseComponentsLoop data (offset + 96)
        (acc ++ [{ publisher_key := publisherKey
                   aggregate_price := aggregatePrice
                   latest_price := latestPrice }])
  else acc
termination_by data.length - offset
decreasing_by omega

/-- `PriceData` from `program_admin/types.py`. -/
structure PriceData where
  used_size : ℕ
  price_type : ℕ
  exponent : ℤ
  components_count : ℕ
  quoters_count : ℕ
  last_slot : ℕ
  valid_slot : ℕ
  ema_price : Bytes
  ema_confidence : Bytes
  timestamp : ℤ
  min_publishers : ℕ
  product_account_key : Bytes
  next_price_account_key : Bytes
  previous_slot : ℕ
  previous_price : ℕ
  previous_confidence : ℕ
  previous_timestamp : ℤ
  aggregate : PriceInfo
  price_components : List PriceComponent
deriving DecidableEq, Repr

/-- `parse_price_data` from `program_admin/parsing.py`. -/
def parsePriceData (data : Bytes) : PriceData :=
  { used_size := readU32 data 12
    price_type := readU32 data 16
    exponent := readI32 data 20
    components_count := readU32 data 24
    quoters_count := readU32 data 28
    last_slot := readU64 data 32
    valid_slot := readU64 data 40
    ema_price := byteSlice data 48 24
    ema_confidence := byteSlice data 72 24
    timestamp := readI64 data 96
    min_publishers := readU8 data 104
    product_account_key := byteSlice data 112 32
    next_price_account_key := byteSlice data 144 32
    previous_slot := readU64 data 176
    previous_price := readU64 data 184
    previous_confidence := readU64 data 192
    previous_timestamp := readI64 data 200
    aggregate := parsePriceInfo (byteSlice data 208 32)
    price_components := parseComponentsLoop data 240 [] }

/-! ## Header dispatch

`parse_data` from `program_admin/parsing.py` (lines 155-175).  The Python
code parses all three header fields (`construct` raising `StreamError`
when fewer than 12 bytes are available) before comparing the magic as the
hex string `hex(u32) == "0xa1b2c3d4"`, which holds exactly for the
numeric value `0xa1b2c3d4`. -/

/-- `MAGIC_NUMBER` (`"0xa1b2c3d4"` compared via `hex`, hence the numeric
constant). -/
def MAGIC_NUMBER : ℕ := 0xa1b2c3d4

/-- `VERSION = 2`. -/
def VERSION : ℕ := 2

/-- `AuthorityPermissionData` from `program_admin/types.py`; present in
the `AccountData` union although `parse_data` never constructs it. -/
structure AuthorityPermissionData where
  master_authority : Bytes
  data_curation_authority : Bytes
  security_authority : Bytes
deriving DecidableEq, Repr

/-- The `AccountData` union from `program_admin/types.py`. -/
inductive AccountData where
  | mapping : MappingData → AccountData
  | product : ProductData → AccountData
  | price : PriceData → AccountData
  | permission : AuthorityPermissionData → AccountData
deriving DecidableEq, Repr

/-- `parse_data` from `program_admin/parsing.py`: `.ok none` models the
Python `None` returns (unrecognized header, test account type), `.error`
models the raised exceptions (`StreamError` on a buffer shorter than the
12-byte header, `RuntimeError` on an unknown account type). -/
def parseData (data : Bytes) : Except String (Option AccountData) :=
  if data.length < 12 then .error "stream read less than specified amount"
  else
    let magicNumber := readU32 data 0
    let version := readU32 data 4
    let dataType := readU32 data 8
    if magicNumber ≠ MAGIC_NUMBER then .ok none
    else if version ≠ VERSION then .ok none
    else if dataType = 1 then .ok (some (.mapping (parseMappingData data)))
    else if dataType = 2 then .ok (some (.product (parseProductData data)))
    else if dataType = 3 then .ok (some (.price (parsePriceData data)))
    else if dataType = 4 then .ok none
    else .error ("Invalid account type: " ++ toString dataType)

/-! ## Transaction batching

`send_transaction` from `program_admin/__init__.py` (lines 163-215).  The
instruction and signer types are opaque parameters; the exact wire size
of a signed transaction holding a given instruction list is computed by
the external `solana-py` serializer (`compute_transaction_size`), modelled
as a size oracle `sz : List α → ℕ`.  `PACKET_DATA_SIZE = 1232` in
`solana-py`, and the Python guard `size < PACKET_DATA_SIZE / 2` compares
an integer against the float `616.0`, i.e. `size < 616`. -/

/-- `PACKET_DATA_SIZE` from `solana.transaction`. -/
def PACKET_DATA_SIZE : ℕ := 1232

/-- `PACKET_DATA_SIZE / 2`, exact because the limit is even. -/
def HALF_PACKET : ℕ := 616

/-- The `while` loop of `send_transaction`: keep appending the next
instruction to the current transaction while the serialized size of the
transaction built so far is below half the packet limit and instructions
remain; return the built transaction and the untouched suffix. -/
def fillTransaction (sz : List α → ℕ) :
    List α → List α → List α × List α
  | tx, [] => (tx, [])
  | tx, i :: rest =>
      if sz tx < HALF_PACKET then fillTransaction sz (tx ++ [i]) rest
      else (tx, i :: rest)

/-- `send_transaction`: the first instruction is added unconditionally,
the loop fills the transaction, the transaction is submitted with the
given signers, and the function recurses on the remaining suffix with the
same signer list.  The model returns the submitted batches in order, each
paired with the signer list used for it. -/
def sendTransaction (sz : List α → ℕ) (signers : List β) :
    List α → List (List α × List β)
  | [] => []
  | i :: rest =>
      let p := fillTransaction sz [i] rest
      (p.1, signers) :: sendTransaction sz signers p.2
termination_by ixs => ixs.length
decreasing_by
  have aux : ∀ (rest tx : List α),
      (fillTransaction sz tx rest).2.length ≤ rest.length := by
    intro rest
    induction rest with
    | nil => intro _; simp [fillTransaction]
    | cons j rest ih =>
        intro tx
        simp only [fillTransaction]
        split
        · exact le_trans (ih (tx ++ [j])) (Nat.le_succ _)
        · simp
  exact Nat.lt_succ_of_le (aux rest [i])

/-! ## Publisher / min-publishers reconciliation

`sync_price_instructions` from `program_admin/__init__.py`
(lines 497-564).  Public keys are again modelled as `ℕ`.  Only the fields
the function reads are modelled: the reference product's `jump_symbol`
and `min_publishers`, the publishers' name→key map, the permissions'
symbol→("price"→names) map, and the on-chain price account's
`min_publishers` and component publisher keys.  Python `set`s become
`Finset ℕ`; iteration order over a Python set is unspecified, so the
model iterates in ascending key order. -/

/-- `ReferenceProduct` from `program_admin/types.py` (the fields
`sync_price_instructions` can read). -/
structure ReferenceProduct where
  jump_symbol : String
  exponent : ℤ
  metadata : List (String × String)
  min_publishers : Option ℕ
deriving DecidableEq, Repr

/-- `ReferencePublishers` from `program_admin/types.py`: the `"keys"`
name→key map (the inverse `"names"` map is only used for logging). -/
structure ReferencePublishers where
  keys : List (String × ℕ)
deriving DecidableEq, Repr

/-- The on-chain price account state read by `sync_price_instructions`:
`price_account.data.min_publishers` and the `publisher_key` of each entry
of `price_account.data.price_components`. -/
structure PriceAccountState where
  min_publishers : ℕ
  component_publisher_keys : List ℕ
deriving DecidableEq, Repr

/-- The abstract operations `sync_price_instructions` can append:
`pyth_program.set_minimum_publishers` and
`pyth_program.toggle_publisher` with `status=False` (remove) or
`status=True` (add). -/
inductive PriceOp where
  | setMinimumPublishers : ℕ → PriceOp
  | removePublisher : ℕ → PriceOp
  | addPublisher : ℕ → PriceOp
deriving DecidableEq, Repr

/-- `ReferencePermissions` as consulted here:
`reference_permissions[jump_symbol]["price"]`, a list of publisher
names. -/
abbrev PermissionsMap := List (String × List (String × List String))

/-- `reference_publishers["keys"][name]` (total model of the dict lookup;
the claims only exercise names present in the map). -/
def publisherKeyOf (pubs : ReferencePublishers) (name : String) : ℕ :=
  (pubs.keys.lookup name).getD 0

/-- `current_publisher_keys`: the set of component publisher keys.
Python sets are modelled as duplicate-free lists in first-occurrence
order. -/
def currentPublisherKeys (price : PriceAccountState) : List ℕ :=
  price.component_publisher_keys.dedup

/-- `new_publisher_keys`: the set of keys of the publisher names listed
for the product's symbol under `"price"`. -/
def newPublisherKeys (product : ReferenceProduct)
    (pubs : ReferencePublishers) (perms : PermissionsMap) : List ℕ :=
  (((((perms.lookup product.jump_symbol).getD []).lookup "price").getD
    []).dedup.map (publisherKeyOf pubs)).dedup

/-- The min-publishers part of `sync_price_instructions`: when the
reference specifies a value and it differs from the on-chain one, one
`set_minimum_publishers` instruction. -/
def minPublishersPart (product : ReferenceProduct)
    (price : PriceAccountState) : List PriceOp :=
  match product.min_publishers with
  | none => []
  | some expected =>
      if price.min_publishers ≠ expected then
        [.setMinimumPublishers expected]
      else []

/-- `sync_price_instructions`: the min-publishers instruction (if any),
then one remove per key in `current − new`, then one add per key in
`new − current`, each difference iterated once per key (Python's
iteration order over a set is unspecified; the model iterates sets in
first-occurrence order). -/
def syncPriceInstructions (product : ReferenceProduct)
    (pubs : ReferencePublishers) (perms : PermissionsMap)
    (price : PriceAccountState) : List PriceOp :=
  let currentKeys := currentPublisherKeys price
  let newKeys := newPublisherKeys product pubs perms
  let publishersToAdd := newKeys.filter (fun k => k ∉ currentKeys)
  let publishersToRemove := currentKeys.filter (fun k => k ∉ newKeys)
  minPublishersPart product price ++
    publishersToRemove.map PriceOp.removePublisher ++
    publishersToAdd.map PriceOp.addPublisher

/-- A concrete size oracle used to instantiate the batching theorem: a
170-byte base (a signed fee-payer-only transaction) plus 300 bytes per
instruction. -/
def szConcrete : List ℕ → ℕ := fun l => 170 + 300 * l.length

/-! # Theorems

General-purpose lemmas first, then one theorem per claim (with its
witness or counterexample where required). -/

theorem byteAt_append_cons (pre : Bytes) (b : ℕ) (rest : Bytes) :
    byteAt (pre ++ b :: rest) pre.length = b := by
  unfold byteAt
  rw [List.getD_append_right _ _ _ _ le_rfl]
  simp

theorem byteSlice_append (pre mid post : Bytes) :
    byteSlice (pre ++ (mid ++ post)) pre.length mid.length = mid := by
  simp [byteSlice, List.drop_left, List.take_left]

theorem walkChain_succ (prev : ℕ → Option ℕ) (n : ℕ) (c : ℕ) :
    walkChain prev (n + 1) c = walkChain prev n (walkStep prev c) ++ [c] :=
  rfl

theorem lastKeyOf_eq_none_iff (accounts : List MappingAccountK) :
    lastKeyOf accounts = none ↔
      ∀ a ∈ accounts, a.next_mapping_account_key ≠ 0 := by
  simp [lastKeyOf]

/-- Claim C1, counterexample.  `[{key 1, next 0}, {key 2, next 5}]` has
exactly one tail but account 2 is unreachable from it by reverse links,
and `[{key 1, next 0}, {key 2, next 0}]` has two tails; the claim says
both calls raise `BrokenChainError`, yet the code returns a key list in
both cases (padding the unreachable positions with a repeated key). -/
theorem sortMappingAccountKeys_no_raise_counterexample :
    sortMappingAccountKeys
        [⟨1, 0⟩, ⟨2, 5⟩] = .ok [1, 1] ∧
      sortMappingAccountKeys
        [⟨1, 0⟩, ⟨2, 0⟩] = .ok [2, 2] := by
  constructor <;> rfl

/-- Claim C1, amended: for a non-empty account list,
`sort_mapping_account_keys` raises exactly when no tail exists (no record
has the zero next key); when at least one tail exists it returns a key
list without raising, even if there are several tails or the reverse walk
from the (last-listed) tail cannot visit every record. -/
theorem sortMappingAccountKeys_error_iff_no_tail
    (accounts : List MappingAccountK) (hne : accounts ≠ []) :
    sortMappingAccountKeys accounts = .error "The linked list has no end" ↔
      ∀ a ∈ accounts, a.next_mapping_account_key ≠ 0 := by
  have hempty : accounts.isEmpty = false := by
    simpa [List.isEmpty_iff] using hne
  constructor
  · intro h
    rw [← lastKeyOf_eq_none_iff]
    by_contra hcon
    rcases Option.ne_none_iff_exists.mp hcon with ⟨lk, hlk⟩
    simp [sortMappingAccountKeys, hempty, ← hlk] at h
  · intro h
    have : lastKeyOf accounts = none := (lastKeyOf_eq_none_iff accounts).mpr h
    simp [sortMappingAccountKeys, hempty, this]

/-- Witness for `sortMappingAccountKeys_error_iff_no_tail`: a two-element
list with no zero next key raises. -/
theorem sortMappingAccountKeys_error_iff_no_tail_witness :
    sortMappingAccountKeys [⟨1, 2⟩, ⟨2, 3⟩] =
      .error "The linked list has no end" :=
  (sortMappingAccountKeys_error_iff_no_tail [⟨1, 2⟩, ⟨2, 3⟩]
    (by decide)).mpr (by decide)

theorem applyOverridesEntry_fst (nov : List (String × Bool))
    (kv : String × List (String × List String)) :
    (applyOverridesEntry nov kv).1 = kv.1 := by
  unfold applyOverridesEntry
  split <;> rfl

theorem lookup_map_applyOverridesEntry (perms : RefPermissions)
    (nov : List (String × Bool)) (s : String) :
    (perms.map (applyOverridesEntry nov)).lookup s =
      (perms.lookup s).map (fun v => (applyOverridesEntry nov (s, v)).2) := by
  induction perms with
  | nil => rfl
  | cons kv rest ih =>
      rcases kv with ⟨k, v⟩
      have hsplit : applyOverridesEntry nov (k, v) =
          (k, (applyOverridesEntry nov (k, v)).2) :=
        Prod.ext (applyOverridesEntry_fst nov (k, v)) rfl
      rw [List.map_cons, hsplit, List.lookup_cons, List.lookup_cons]
      cases hsk : (s == k) with
      | true =>
          have hs : s = k := eq_of_beq hsk
          subst hs
          simp
      | false =>
          simp only [hsk]
          exact ih

theorem applyOverridesEntry_idem (nov : List (String × Bool))
    (kv : String × List (String × List String)) :
    applyOverridesEntry nov (applyOverridesEntry nov kv) =
      applyOverridesEntry nov kv := by
  by_cases h : nov.lookup kv.1 = some false
  · simp [applyOverridesEntry, h, List.map_map, Function.comp]
  · simp [applyOverridesEntry, h]

/-- Claim C3: `apply_overrides` is the identity for an empty overrides
map; overrides for networks other than the given one have no effect (the
result only depends on the given network's override entry); a symbol the
network's overrides map to `false` has every account-type publisher list
emptied while any other symbol is returned unchanged; and the function is
idempotent. -/
theorem applyOverrides_spec (perms : RefPermissions)
    (ov ov2 : RefOverrides) (network : String) :
    applyOverrides perms [] network = perms ∧
    (ov.lookup network = ov2.lookup network →
      applyOverrides perms ov network = applyOverrides perms ov2 network) ∧
    (∀ sym, ((ov.lookup network).getD []).lookup sym = some false →
      (applyOverrides perms ov network).lookup sym =
        (perms.lookup sym).map
          (fun v => v.map (fun av => (av.1, ([] : List String))))) ∧
    (∀ sym, ((ov.lookup network).getD []).lookup sym ≠ some false →
      (applyOverrides perms ov network).lookup sym = perms.lookup sym) ∧
    applyOverrides (applyOverrides perms ov network) ov network =
      applyOverrides perms ov network := by
  refine ⟨?_, ?_, ?_, ?_, ?_⟩
  · simp only [applyOverrides, List.lookup_nil, Option.getD_none]
    have hid : ∀ kv, applyOverridesEntry [] kv = kv := by
      intro kv
      simp [applyOverridesEntry]
    exact (List.map_congr_left (fun kv _ => hid kv)).trans (List.map_id perms)
  · intro h
    simp only [applyOverrides]
    rw [h]
  · intro sym hsym
    simp only [applyOverrides, lookup_map_applyOverridesEntry]
    simp [applyOverridesEntry, hsym]
  · intro sym hsym
    simp only [applyOverrides, lookup_map_applyOverridesEntry]
    simp [applyOverridesEntry, hsym]
  · simp only [applyOverrides, List.map_map]
    exact List.map_congr_left
      (fun kv _ => applyOverridesEntry_idem _ kv)

/-- Witness for `applyOverrides_spec`: idempotence at a concrete
permissions map and override set. -/
theorem applyOverrides_spec_witness :
    applyOverrides
        (applyOverrides [("A", [("price", ["x"])]), ("B", [("price", ["y"])])]
          [("net", [("B", false)])] "net")
        [("net", [("B", false)])] "net" =
      applyOverrides [("A", [("price", ["x"])]), ("B", [("price", ["y"])])]
        [("net", [("B", false)])] "net" :=
  (applyOverrides_spec [("A", [("price", ["x"])]), ("B", [("price", ["y"])])]
    [("net", [("B", false)])] [] "net").2.2.2.2

/-- Claim C7, counterexample.  The Python code parses all three header
fields before comparing the magic, so a 4-byte buffer whose magic differs
from the constant raises `StreamError` instead of returning `None`: the
claim fails for buffers shorter than the 12-byte header. -/
theorem parseData_short_buffer_counterexample :
    readU32 [0, 0, 0, 0] 0 ≠ MAGIC_NUMBER ∧
      parseData [0, 0, 0, 0] =
        .error "stream read less than specified amount" := by
  constructor
  · decide
  · rfl

/-- Claim C7, amended: for every buffer of at least 12 bytes, `parse_data`
returns `None` (not an error) whenever the magic differs from the fixed
constant, or the version differs from the fixed version number, or the
account kind is the test kind. -/
theorem parseData_header_mismatch_absent (data : Bytes)
    (h12 : 12 ≤ data.length)
    (hcase : readU32 data 0 ≠ MAGIC_NUMBER ∨ readU32 data 4 ≠ VERSION ∨
      readU32 data 8 = 4) :
    parseData data = .ok none := by
  have hlen : ¬data.length < 12 := by omega
  simp only [parseData, hlen, if_false]
  rcases hcase with h | h | h
  · simp [h]
  · by_cases hm : readU32 data 0 = MAGIC_NUMBER <;> simp [hm, h]
  · by_cases hm : readU32 data 0 = MAGIC_NUMBER <;>
      by_cases hv : readU32 data 4 = VERSION <;>
        simp [hm, hv, h]

/-- Witness for `parseData_header_mismatch_absent`: twelve zero bytes
have a wrong magic and decode to `None`. -/
theorem parseData_header_mismatch_absent_witness :
    parseData (List.replicate 12 0) = .ok none :=
  parseData_header_mismatch_absent (List.replicate 12 0) (by decide)
    (Or.inl (by decide))

/-- Claim C10: a buffer whose magic and version match the fixed constants
but whose account-kind discriminant is outside {1 mapping, 2 product,
3 price, 4 test} makes `parse_data` raise (`RuntimeError`) rather than
return `None`; and no input buffer ever decodes to a permission-kind
record. -/
theorem parseData_unknown_kind_raises (data : Bytes)
    (h12 : 12 ≤ data.length)
    (hm : readU32 data 0 = MAGIC_NUMBER) (hv : readU32 data 4 = VERSION)
    (hk : readU32 data 8 ≠ 1 ∧ readU32 data 8 ≠ 2 ∧ readU32 data 8 ≠ 3 ∧
      readU32 data 8 ≠ 4) :
    parseData data =
        .error ("Invalid account type: " ++ toString (readU32 data 8)) ∧
      ∀ (d : Bytes) (p : AuthorityPermissionData),
        parseData d ≠ .ok (some (.permission p)) := by
  constructor
  · have hlen : ¬data.length < 12 := by omega
    obtain ⟨h1, h2, h3, h4⟩ := hk
    simp [parseData, hlen, hm, hv, h1, h2, h3, h4]
  · intro d p
    simp only [parseData]
    split_ifs <;> simp

/-- Witness for `parseData_unknown_kind_raises`: a well-headed buffer of
account kind 9 raises. -/
theorem parseData_unknown_kind_raises_witness :
    parseData [0xd4, 0xc3, 0xb2, 0xa1, 2, 0, 0, 0, 9, 0, 0, 0] =
      .error "Invalid account type: 9" :=
  (parseData_unknown_kind_raises
    [0xd4, 0xc3, 0xb2, 0xa1, 2, 0, 0, 0, 9, 0, 0, 0] (by decide) (by decide)
    (by decide) (by decide)).1

theorem setMin_not_mem_removes (m : ℕ) (l : List ℕ) :
    PriceOp.setMinimumPublishers m ∉ l.map PriceOp.removePublisher := by
  simp

theorem setMin_not_mem_adds (m : ℕ) (l : List ℕ) :
    PriceOp.setMinimumPublishers m ∉ l.map PriceOp.addPublisher := by
  simp

/-- Claim C8: with reference `min_publishers = None`,
`sync_price_instructions` never emits a set-minimum-publishers operation;
with reference `min_publishers = n` differing from the on-chain value it
emits exactly one such operation, carrying `n`; and with `n` equal to the
on-chain value it emits none. -/
theorem syncPriceInstructions_minPublishers_spec (product : ReferenceProduct)
    (pubs : ReferencePublishers) (perms : PermissionsMap)
    (price : PriceAccountState) :
    (product.min_publishers = none →
      ∀ n, PriceOp.setMinimumPublishers n ∉
        syncPriceInstructions product pubs perms price) ∧
    (∀ n, product.min_publishers = some n → price.min_publishers ≠ n →
      (syncPriceInstructions product pubs perms price).count
          (PriceOp.setMinimumPublishers n) = 1 ∧
      ∀ m, m ≠ n → PriceOp.setMinimumPublishers m ∉
        syncPriceInstructions product pubs perms price) ∧
    (∀ n, product.min_publishers = some n → price.min_publishers = n →
      ∀ m, PriceOp.setMinimumPublishers m ∉
        syncPriceInstructions product pubs perms price) := by
  refine ⟨?_, ?_, ?_⟩
  · intro hnone n
    simp [syncPriceInstructions, minPublishersPart, hnone]
  · intro n hsome hne
    constructor
    · simp only [syncPriceInstructions, minPublishersPart, hsome, hne,
        if_true, List.count_append, ne_eq, not_false_eq_true, ite_true]
      rw [List.count_eq_zero.mpr (setMin_not_mem_removes n _),
        List.count_eq_zero.mpr (setMin_not_mem_adds n _)]
      simp [List.count_singleton_self]
    · intro m hm
      simp [syncPriceInstructions, minPublishersPart, hsome, hne, hm]
  · intro n hsome heq m
    simp [syncPriceInstructions, minPublishersPart, hsome, heq]

/-- Witness for `syncPriceInstructions_minPublishers_spec`: a reference
value of 7 against an on-chain value of 5 yields exactly one
set-minimum-publishers operation. -/
theorem syncPriceInstructions_minPublishers_spec_witness :
    (syncPriceInstructions ⟨"SYM", -8, [], some 7⟩ ⟨[("b", 2), ("c", 3)]⟩
        [("SYM", [("price", ["b", "c"])])] ⟨5, [1, 2]⟩).count
      (PriceOp.setMinimumPublishers 7) = 1 :=
  ((syncPriceInstructions_minPublishers_spec ⟨"SYM", -8, [], some 7⟩
    ⟨[("b", 2), ("c", 3)]⟩ [("SYM", [("price", ["b", "c"])])]
    ⟨5, [1, 2]⟩).2.1 7 rfl (by decide)).1

/-- Claim C5: the publisher toggles of `sync_price_instructions` are the
plain set differences over public keys — first one remove per key of
`on-chain − reference`, then one add per key of `reference − on-chain`,
each key exactly once; and in the concrete scenario with on-chain
publishers {A = 1, B = 2} and reference {B = 2, C = 3} the plan is
exactly remove(1), add(3) with no operation for 2. -/
theorem syncPriceInstructions_publisher_diff_spec
    (product : ReferenceProduct) (pubs : ReferencePublishers)
    (perms : PermissionsMap) (price : PriceAccountState) :
    (syncPriceInstructions product pubs perms price =
      minPublishersPart product price ++
        ((currentPublisherKeys price).filter
          (fun k => k ∉ newPublisherKeys product pubs perms)).map
            PriceOp.removePublisher ++
        ((newPublisherKeys product pubs perms).filter
          (fun k => k ∉ currentPublisherKeys price)).map
            PriceOp.addPublisher) ∧
    (∀ k, (syncPriceInstructions product pubs perms price).count
        (PriceOp.removePublisher k) =
      if k ∈ (currentPublisherKeys price).toFinset \
          (newPublisherKeys product pubs perms).toFinset
        then 1 else 0) ∧
    (∀ k, (syncPriceInstructions product pubs perms price).count
        (PriceOp.addPublisher k) =
      if k ∈ (newPublisherKeys product pubs perms).toFinset \
          (currentPublisherKeys price).toFinset
        then 1 else 0) ∧
    syncPriceInstructions ⟨"SYM", -8, [], none⟩ ⟨[("B", 2), ("C", 3)]⟩
        [("SYM", [("price", ["B", "C"])])] ⟨5, [1, 2]⟩ =
      [PriceOp.removePublisher 1, PriceOp.addPublisher 3] := by
  have hremove : Function.Injective PriceOp.removePublisher := by
    intro a b hab
    cases hab
    rfl
  have hadd : Function.Injective PriceOp.addPublisher := by
    intro a b hab
    cases hab
    rfl
  have hminRemove : ∀ k, (minPublishersPart product price).count
      (PriceOp.removePublisher k) = 0 := by
    intro k
    rw [List.count_eq_zero]
    cases hmp : product.min_publishers with
    | none => simp [minPublishersPart, hmp]
    | some n =>
        simp only [minPublishersPart, hmp]
        split <;> simp
  have hminAdd : ∀ k, (minPublishersPart product price).count
      (PriceOp.addPublisher k) = 0 := by
    intro k
    rw [List.count_eq_zero]
    cases hmp : product.min_publishers with
    | none => simp [minPublishersPart, hmp]
    | some n =>
        simp only [minPublishersPart, hmp]
        split <;> simp
  have hcount : ∀ (l : List ℕ) (k : ℕ), l.Nodup →
      (l.count k = if k ∈ l then 1 else 0) := by
    intro l k hl
    by_cases hk : k ∈ l
    · rw [if_pos hk]
      exact List.count_eq_one_of_mem hl hk
    · rw [if_neg hk]
      exact List.count_eq_zero.mpr hk
  have hnodupCur : (currentPublisherKeys price).Nodup :=
    List.nodup_dedup _
  have hnodupNew : (newPublisherKeys product pubs perms).Nodup :=
    List.nodup_dedup _
  refine ⟨rfl, ?_, ?_, by decide⟩
  · intro k
    simp only [syncPriceInstructions, List.count_append, hminRemove,
      Nat.zero_add]
    rw [List.count_eq_zero.mpr (by simp : PriceOp.removePublisher k ∉
      ((newPublisherKeys product pubs perms).filter
        (fun k => k ∉ currentPublisherKeys price)).map PriceOp.addPublisher),
      Nat.add_zero, List.count_map_of_injective _ _ hremove,
      hcount _ k (hnodupCur.filter _)]
    by_cases hk : k ∈ (currentPublisherKeys price).toFinset \
        (newPublisherKeys product pubs perms).toFinset
    · rw [if_pos hk, if_pos]
      rcases Finset.mem_sdiff.mp hk with ⟨h1, h2⟩
      simp only [List.mem_filter, decide_eq_true_eq]
      exact ⟨List.mem_toFinset.mp h1, fun hc =>
        h2 (List.mem_toFinset.mpr hc)⟩
    · rw [if_neg hk, if_neg]
      intro hc
      rcases List.mem_filter.mp hc with ⟨h1, h2⟩
      exact hk (Finset.mem_sdiff.mpr ⟨List.mem_toFinset.mpr h1, fun hn =>
        (by simpa using h2 : k ∉ newPublisherKeys product pubs perms)
          (List.mem_toFinset.mp hn)⟩)
  · intro k
    simp only [syncPriceInstructions, List.count_append, hminAdd,
      Nat.zero_add]
    rw [List.count_eq_zero.mpr (by simp : PriceOp.addPublisher k ∉
      ((currentPublisherKeys price).filter
        (fun k => k ∉ newPublisherKeys product pubs perms)).map
          PriceOp.removePublisher),
      Nat.zero_add, List.count_map_of_injective _ _ hadd,
      hcount _ k (hnodupNew.filter _)]
    by_cases hk : k ∈ (newPublisherKeys product pubs perms).toFinset \
        (currentPublisherKeys price).toFinset
    · rw [if_pos hk, if_pos]
      rcases Finset.mem_sdiff.mp hk with ⟨h1, h2⟩
      simp only [List.mem_filter, decide_eq_true_eq]
      exact ⟨List.mem_toFinset.mp h1, fun hc =>
        h2 (List.mem_toFinset.mpr hc)⟩
    · rw [if_neg hk, if_neg]
      intro hc
      rcases List.mem_filter.mp hc with ⟨h1, h2⟩
      exact hk (Finset.mem_sdiff.mpr ⟨List.mem_toFinset.mpr h1, fun hn =>
        (by simpa using h2 : k ∉ currentPublisherKeys price)
          (List.mem_toFinset.mp hn)⟩)

/-- Witness for `syncPriceInstructions_publisher_diff_spec`: the concrete
{A,B} vs {B,C} scenario. -/
theorem syncPriceInstructions_publisher_diff_spec_witness :
    syncPriceInstructions ⟨"SYM", -8, [], none⟩ ⟨[("B", 2), ("C", 3)]⟩
        [("SYM", [("price", ["B", "C"])])] ⟨5, [1, 2]⟩ =
      [PriceOp.removePublisher 1, PriceOp.addPublisher 3] :=
  (syncPriceInstructions_publisher_diff_spec ⟨"SYM", -8, [], none⟩
    ⟨[("B", 2), ("C", 3)]⟩ [("SYM", [("price", ["B", "C"])])]
    ⟨5, [1, 2]⟩).2.2.2

theorem fillTransaction_fst_append_snd {α : Type} (sz : List α → ℕ)
    (rest tx : List α) :
    (fillTransaction sz tx rest).1 ++ (fillTransaction sz tx rest).2 =
      tx ++ rest := by
  induction rest generalizing tx with
  | nil => simp [fillTransaction]
  | cons i rest ih =>
      simp only [fillTransaction]
      split
      · rw [ih (tx ++ [i])]
        simp
      · rfl

theorem fillTransaction_snd_length_le {α : Type} (sz : List α → ℕ)
    (rest tx : List α) :
    (fillTransaction sz tx rest).2.length ≤ rest.length := by
  induction rest generalizing tx with
  | nil => simp [fillTransaction]
  | cons i rest ih =>
      simp only [fillTransaction]
      split
      · exact le_trans (ih (tx ++ [i])) (Nat.le_succ _)
      · simp

theorem fillTransaction_fst_size {α : Type} (sz : List α → ℕ)
    (hstep : ∀ (tx : List α) (i : α), sz (tx ++ [i]) ≤ sz tx + HALF_PACKET)
    (rest tx : List α) (htx : sz tx < PACKET_DATA_SIZE) :
    sz (fillTransaction sz tx rest).1 < PACKET_DATA_SIZE := by
  induction rest generalizing tx with
  | nil => simpa [fillTransaction] using htx
  | cons i rest ih =>
      simp only [fillTransaction]
      split
      · rename_i hguard
        refine ih (tx ++ [i]) ?_
        calc sz (tx ++ [i]) ≤ sz tx + HALF_PACKET := hstep tx i
          _ < HALF_PACKET + HALF_PACKET := by
              have : (HALF_PACKET : ℕ) = 616 := rfl
              omega
          _ = PACKET_DATA_SIZE := rfl
      · exact htx

/-- Claim C2: under the preconditions that appending any single
instruction grows a transaction's serialized size by at most half the
packet limit and that an empty (fee-payer-only) transaction serializes
below half the packet limit, every transaction produced by
`send_transaction` has serialized size strictly below `PACKET_DATA_SIZE`,
every batch is submitted with the same signer list, and concatenating the
produced transactions' instruction lists in submission order reproduces
the original instruction sequence exactly. -/
theorem sendTransaction_size_and_concat {α β : Type} (sz : List α → ℕ)
    (signers : List β) (ixs : List α)
    (hstep : ∀ (tx : List α) (i : α), sz (tx ++ [i]) ≤ sz tx + HALF_PACKET)
    (hbase : sz [] < HALF_PACKET) :
    (∀ txp ∈ sendTransaction sz signers ixs,
      sz txp.1 < PACKET_DATA_SIZE ∧ txp.2 = signers) ∧
    ((sendTransaction sz signers ixs).map Prod.fst).flatten = ixs := by
  have main : ∀ (n : ℕ) (l : List α), l.length ≤ n →
      (∀ txp ∈ sendTransaction sz signers l,
        sz txp.1 < PACKET_DATA_SIZE ∧ txp.2 = signers) ∧
      ((sendTransaction sz signers l).map Prod.fst).flatten = l := by
    intro n
    induction n with
    | zero =>
        intro l hl
        have : l = [] := List.length_eq_zero.mp (Nat.le_zero.mp hl)
        subst this
        simp [sendTransaction]
    | succ n ih =>
        intro l hl
        match l with
        | [] => simp [sendTransaction]
        | i :: rest =>
            have hrec := ih (fillTransaction sz [i] rest).2
              (le_trans (fillTransaction_snd_length_le sz rest [i])
                (Nat.le_of_succ_le_succ hl))
            have hsize1 : sz [i] < PACKET_DATA_SIZE := by
              have h1 : sz ([] ++ [i]) ≤ sz [] + HALF_PACKET := hstep [] i
              have h2 : ([] : List α) ++ [i] = [i] := by simp
              rw [h2] at h1
              have : (HALF_PACKET : ℕ) = 616 ∧
                  (PACKET_DATA_SIZE : ℕ) = 1232 := ⟨rfl, rfl⟩
              omega
            constructor
            · intro txp htxp
              rw [sendTransaction] at htxp
              rcases List.mem_cons.mp htxp with h | h
              · subst h
                exact ⟨fillTransaction_fst_size sz hstep rest [i] hsize1, rfl⟩
              · exact hrec.1 txp h
            · rw [sendTransaction]
              simp only [List.map_cons, List.flatten_cons, hrec.2]
              exact fillTransaction_fst_append_snd sz rest [i]
  exact main ixs.length ixs le_rfl

/-- Witness for `sendTransaction_size_and_concat`: the size oracle
`szConcrete` splits five instructions into batches whose instruction
lists concatenate back to the input. -/
theorem sendTransaction_size_and_concat_witness :
    ((sendTransaction szConcrete [99] [1, 2, 3, 4, 5]).map
      Prod.fst).flatten = [1, 2, 3, 4, 5] :=
  (sendTransaction_size_and_concat szConcrete [99] [1, 2, 3, 4, 5]
    (by
      intro tx i
      simp [szConcrete, HALF_PACKET]
      omega)
    (by simp [szConcrete, HALF_PACKET])).2

theorem dictSet_append_of_notMem (m : Metadata) (k v : Bytes)
    (h : k ∉ m.map Prod.fst) : dictSet m k v = m ++ [(k, v)] := by
  induction m with
  | nil => rfl
  | cons p rest ih =>
      rcases p with ⟨k0, v0⟩
      simp only [List.map_cons, List.mem_cons] at h
      push_neg at h
      simp only [dictSet]
      rw [if_neg (by simpa using (h.1).symm), ih h.2]
      rfl

theorem encodeProductMetadata_cons (k v : Bytes) (m : Metadata) :
    encodeProductMetadata ((k, v) :: m) =
      k.length :: (k ++ v.length :: (v ++ encodeProductMetadata m)) := by
  simp [encodeProductMetadata]

/-- The metadata loop of `parse_product_data` inverts
`encode_product_metadata` placed at any offset, for maps with distinct
non-empty keys. -/
theorem parseMetaLoop_encode (m : Metadata) :
    ∀ (pre : Bytes) (acc : Metadata),
      (∀ p ∈ m, p.1 ≠ []) →
      (acc.map Prod.fst ++ m.map Prod.fst).Nodup →
      parseMetaLoop (pre ++ encodeProductMetadata m)
        (pre.length + (encodeProductMetadata m).length) pre.length acc =
        acc ++ m := by
  induction m with
  | nil =>
      intro pre acc _ _
      unfold parseMetaLoop
      simp [encodeProductMetadata]
  | cons kv m ih =>
      rcases kv with ⟨k, v⟩
      intro pre acc hne hnd
      have hk : k ≠ [] := hne (k, v) (List.mem_cons_self _ _)
      have hklen : k.length ≠ 0 := fun h => hk (List.length_eq_zero.mp h)
      have hD1 : pre ++ encodeProductMetadata ((k, v) :: m) =
          pre ++ (k.length :: (k ++ (v.length ::
            (v ++ encodeProductMetadata m)))) := by
        rw [encodeProductMetadata_cons]
      have hA : byteAt (pre ++ encodeProductMetadata ((k, v) :: m))
          pre.length = k.length := by
        rw [hD1]
        exact byteAt_append_cons _ _ _
      have hB : byteSlice (pre ++ encodeProductMetadata ((k, v) :: m))
          (pre.length + 1) k.length = k := by
        have hsh : pre ++ encodeProductMetadata ((k, v) :: m) =
            (pre ++ [k.length]) ++
              (k ++ (v.length :: (v ++ encodeProductMetadata m))) := by
          rw [hD1]
          simp
        have hlen : (pre ++ [k.length]).length = pre.length + 1 := by simp
        rw [hsh, ← hlen]
        exact byteSlice_append _ _ _
      have hC : byteAt (pre ++ encodeProductMetadata ((k, v) :: m))
          (pre.length + 1 + k.length) = v.length := by
        have hsh : pre ++ encodeProductMetadata ((k, v) :: m) =
            (pre ++ k.length :: k) ++
              (v.length :: (v ++ encodeProductMetadata m)) := by
          rw [hD1]
          simp
        have hlen : (pre ++ k.length :: k).length =
            pre.length + 1 + k.length := by
          simp
          omega
        rw [hsh, ← hlen]
        exact byteAt_append_cons _ _ _
      have hE : byteSlice (pre ++ encodeProductMetadata ((k, v) :: m))
          (pre.length + 1 + k.length + 1) v.length = v := by
        have hsh : pre ++ encodeProductMetadata ((k, v) :: m) =
            ((pre ++ k.length :: k) ++ [v.length]) ++
              (v ++ encodeProductMetadata m) := by
          rw [hD1]
          simp
        have hlen : ((pre ++ k.length :: k) ++ [v.length]).length =
            pre.length + 1 + k.length + 1 := by
          simp
          omega
        rw [hsh, ← hlen]
        exact byteSlice_append _ _ _
      have hguard : pre.length <
          pre.length + (encodeProductMetadata ((k, v) :: m)).length := by
        rw [encodeProductMetadata_cons]
        simp
      have hknotin : k ∉ acc.map Prod.fst := by
        intro hcon
        rcases List.nodup_append.mp hnd with ⟨_, _, hdisj⟩
        exact hdisj hcon (by simp)
      unfold parseMetaLoop
      rw [dif_pos hguard]
      simp only [hA, hB, hC, hE]
      rw [if_neg hklen]
      rw [dictSet_append_of_notMem acc k v hknotin]
      have hpre : (pre ++ (k.length :: (k ++ (v.length :: v)))).length =
          pre.length + 1 + k.length + 1 + v.length := by
        simp
        omega
      have hdata : pre ++ encodeProductMetadata ((k, v) :: m) =
          (pre ++ (k.length :: (k ++ (v.length :: v)))) ++
            encodeProductMetadata m := by
        rw [hD1]
        simp
      have harith : pre.length +
          (encodeProductMetadata ((k, v) :: m)).length =
          (pre ++ (k.length :: (k ++ (v.length :: v)))).length +
            (encodeProductMetadata m).length := by
        rw [encodeProductMetadata_cons]
        simp
        omega
      rw [hdata, harith, ← hpre]
      rw [ih (pre ++ (k.length :: (k ++ (v.length :: v))))
        (acc ++ [(k, v)])
        (fun p hp => hne p (List.mem_cons_of_mem _ hp))
        (by simpa using hnd)]
      simp

/-- Claim C4: product metadata round-trips through the codec preserving
order.  For every metadata map with distinct non-empty keys whose keys
and values are at most 255 bytes, parsing a product buffer whose body
from offset 48 is `encode_product_metadata(m)` and whose `used_size`
field equals 48 plus the encoded length yields exactly the pairs of `m`
in their original insertion order (the decoder walks `used_size` bytes,
not a sentinel). -/
theorem parseProductData_metadata_roundtrip (m : Metadata) (header : Bytes)
    (hh : header.length = 48)
    (hkeys : ∀ p ∈ m, p.1 ≠ [])
    (_hlen255 : ∀ p ∈ m, p.1.length ≤ 255 ∧ p.2.length ≤ 255)
    (hnd : (m.map Prod.fst).Nodup)
    (hused : readU32 (header ++ encodeProductMetadata m) 12 =
      48 + (encodeProductMetadata m).length) :
    (parseProductData (header ++ encodeProductMetadata m)).metadata = m := by
  simp only [parseProductData, hused]
  have hmain := parseMetaLoop_encode m header [] hkeys (by simpa using hnd)
  rw [hh] at hmain
  simpa using hmain

/-- Witness for `parseProductData_metadata_roundtrip`: one pair,
key "AB", value "C" (UTF-8 bytes), with `used_size = 53`. -/
theorem parseProductData_metadata_roundtrip_witness :
    (parseProductData
      ((List.replicate 12 0 ++ [53, 0, 0, 0] ++ List.replicate 32 0) ++
        encodeProductMetadata [([65, 66], [67])])).metadata =
      [([65, 66], [67])] :=
  parseProductData_metadata_roundtrip [([65, 66], [67])]
    (List.replicate 12 0 ++ [53, 0, 0, 0] ++ List.replicate 32 0)
    (by decide) (by decide) (by decide) (by decide) (by decide)

theorem byteSlice_append_left (l1 l2 : Bytes) (p n : ℕ)
    (h : p + n ≤ l1.length) :
    byteSlice (l1 ++ l2) p n = byteSlice l1 p n := by
  unfold byteSlice
  rw [List.drop_append_of_le_length (by omega),
    List.take_append_of_le_length (by simp; omega)]

/-- The component loop of `parse_price_data` decodes a run of well-formed
96-byte components placed at any offset, stopping either at the end of
the buffer or at a 32-byte all-zero key, which is not itself recorded. -/
theorem parseComponentsLoop_encode (cs : List (Bytes × Bytes × Bytes)) :
    ∀ (pre : Bytes) (acc : List PriceComponent) (tail : Bytes),
      (∀ c ∈ cs, c.1.length = 32 ∧ c.1 ≠ List.replicate 32 0 ∧
        c.2.1.length = 32 ∧ c.2.2.length = 32) →
      (tail = [] ∨ ∃ rest, tail = List.replicate 32 0 ++ rest) →
      parseComponentsLoop
        (pre ++ (cs.map (fun c => c.1 ++ (c.2.1 ++ c.2.2))).flatten ++ tail)
        pre.length acc =
        acc ++ cs.map (fun c =>
          { publisher_key := c.1
            aggregate_price := parsePriceInfo c.2.1
            latest_price := parsePriceInfo c.2.2 }) := by
  induction cs with
  | nil =>
      intro pre acc tail _ htail
      simp only [List.map_nil, List.flatten_nil, List.append_nil]
      rcases htail with h | ⟨rest, h⟩ <;> subst h
      · unfold parseComponentsLoop
        simp
      · have hguard : pre.length <
            (pre ++ (List.replicate 32 0 ++ rest)).length := by
          simp
        have hkey : byteSlice (pre ++ (List.replicate 32 0 ++ rest))
            pre.length 32 = List.replicate 32 0 := by
          have hlen : (List.replicate 32 (0 : ℕ)).length = 32 := by simp
          rw [← hlen]
          exact byteSlice_append _ _ _
        unfold parseComponentsLoop
        rw [dif_pos hguard]
        simp only [hkey]
        simp
  | cons c cs ih =>
      intro pre acc tail hcs htail
      rcases hcs c (List.mem_cons_self _ _) with ⟨hc1, hc1ne, hc2, hc3⟩
      have hguard : pre.length <
          (pre ++ (((c :: cs).map
            (fun c => c.1 ++ (c.2.1 ++ c.2.2))).flatten) ++ tail).length := by
        simp
        omega
      have hkey : byteSlice (pre ++
          (((c :: cs).map (fun c => c.1 ++ (c.2.1 ++ c.2.2))).flatten) ++
            tail) pre.length 32 = c.1 := by
        have hsh2 : pre ++
            (((c :: cs).map (fun c => c.1 ++ (c.2.1 ++ c.2.2))).flatten) ++
              tail =
            pre ++ (c.1 ++ ((c.2.1 ++ c.2.2) ++
              ((cs.map (fun c => c.1 ++ (c.2.1 ++ c.2.2))).flatten ++
                tail))) := by
          simp
        rw [hsh2, ← hc1]
        exact byteSlice_append _ _ _
      have hagg : byteSlice (pre ++
          (((c :: cs).map (fun c => c.1 ++ (c.2.1 ++ c.2.2))).flatten) ++
            tail) (pre.length + 32) 32 = c.2.1 := by
        have hsh2 : pre ++
            (((c :: cs).map (fun c => c.1 ++ (c.2.1 ++ c.2.2))).flatten) ++
              tail =
            (pre ++ c.1) ++ (c.2.1 ++ (c.2.2 ++
              ((cs.map (fun c => c.1 ++ (c.2.1 ++ c.2.2))).flatten ++
                tail))) := by
          simp
        have hlen : (pre ++ c.1).length = pre.length + 32 := by
          simp [hc1]
        rw [hsh2, ← hlen, ← hc2]
        exact byteSlice_append _ _ _
      have hlat : byteSlice (pre ++
          (((c :: cs).map (fun c => c.1 ++ (c.2.1 ++ c.2.2))).flatten) ++
            tail) (pre.length + 64) 32 = c.2.2 := by
        have hsh2 : pre ++
            (((c :: cs).map (fun c => c.1 ++ (c.2.1 ++ c.2.2))).flatten) ++
              tail =
            (pre ++ c.1 ++ c.2.1) ++ (c.2.2 ++
              ((cs.map (fun c => c.1 ++ (c.2.1 ++ c.2.2))).flatten ++
                tail)) := by
          simp
        have hlen : (pre ++ c.1 ++ c.2.1).length = pre.length + 64 := by
          simp [hc1, hc2]
        rw [hsh2, ← hlen, ← hc3]
        exact byteSlice_append _ _ _
      unfold parseComponentsLoop
      rw [dif_pos hguard]
      simp only [hkey, hagg, hlat]
      rw [if_neg hc1ne]
      have hpre96 : (pre ++ (c.1 ++ (c.2.1 ++ c.2.2))).length =
          pre.length + 96 := by
        simp [hc1, hc2, hc3]
      have hdata : pre ++
          (((c :: cs).map (fun c => c.1 ++ (c.2.1 ++ c.2.2))).flatten) ++
            tail =
          (pre ++ (c.1 ++ (c.2.1 ++ c.2.2))) ++
            ((cs.map (fun c => c.1 ++ (c.2.1 ++ c.2.2))).flatten) ++ tail := by
        simp
      rw [hdata, ← hpre96]
      have happ := ih (pre ++ (c.1 ++ (c.2.1 ++ c.2.2)))
        (acc ++ [⟨c.1, parsePriceInfo c.2.1, parsePriceInfo c.2.2⟩]) tail
        (fun x hx => hcs x (List.mem_cons_of_mem _ hx)) htail
      rw [happ]
      simp

/-- Claim C9: `parse_price_data` reads price components from offset 240
until the buffer is exhausted or a 32-byte all-zero publisher key is
read; the terminator is not itself included, and the `components_count`
header field (bytes 24-28, quantified over arbitrary header contents
here) has no effect on how many components are parsed — it is merely
decoded into the `components_count` field. -/
theorem parsePriceData_components_spec (header : Bytes)
    (h240 : header.length = 240) (cs : List (Bytes × Bytes × Bytes))
    (hcs : ∀ c ∈ cs, c.1.length = 32 ∧ c.1 ≠ List.replicate 32 0 ∧
      c.2.1.length = 32 ∧ c.2.2.length = 32)
    (tail : Bytes)
    (htail : tail = [] ∨ ∃ rest, tail = List.replicate 32 0 ++ rest) :
    (parsePriceData (header ++
        (cs.map (fun c => c.1 ++ (c.2.1 ++ c.2.2))).flatten ++
        tail)).price_components =
      cs.map (fun c =>
        { publisher_key := c.1
          aggregate_price := parsePriceInfo c.2.1
          latest_price := parsePriceInfo c.2.2 }) ∧
    (parsePriceData (header ++
        (cs.map (fun c => c.1 ++ (c.2.1 ++ c.2.2))).flatten ++
        tail)).components_count = readU32 header 24 := by
  constructor
  · simp only [parsePriceData]
    have hmain := parseComponentsLoop_encode cs header [] tail hcs htail
    rw [h240] at hmain
    simpa using hmain
  · simp only [parsePriceData]
    unfold readU32
    rw [byteSlice_append_left _ _ _ _ (by simp [h240]; omega),
      byteSlice_append_left _ _ _ _ (by simp [h240])]

set_option maxRecDepth 8192 in
/-- Witness for `parsePriceData_components_spec`: one component after a
240-byte header, with the component sequence ending at the buffer end. -/
theorem parsePriceData_components_spec_witness :
    (parsePriceData (List.replicate 240 0 ++
        ([((List.replicate 32 5 : Bytes), (List.replicate 32 6 : Bytes),
          (List.replicate 32 7 : Bytes))].map
            (fun c => c.1 ++ (c.2.1 ++ c.2.2))).flatten ++
        [])).price_components =
      [((List.replicate 32 5 : Bytes), (List.replicate 32 6 : Bytes),
        (List.replicate 32 7 : Bytes))].map (fun c =>
        { publisher_key := c.1
          aggregate_price := parsePriceInfo c.2.1
          latest_price := parsePriceInfo c.2.2 }) :=
  (parsePriceData_components_spec (List.replicate 240 0) (by decide)
    [((List.replicate 32 5 : Bytes), (List.replicate 32 6 : Bytes),
      (List.replicate 32 7 : Bytes))]
    (by decide) [] (Or.inl rfl)).1

theorem zipAccounts_filter_nil (l1 l2 : List ℕ) (b : ℕ) (hb : b ∉ l2) :
    ((l1.zip l2).map
        (fun p : ℕ × ℕ => (⟨p.1, p.2⟩ : MappingAccountK))).filter
      (fun x => x.next_mapping_account_key = b) = [] := by
  induction l1 generalizing l2 with
  | nil => simp
  | cons x l1 ih =>
      cases l2 with
      | nil => simp
      | cons y l2 =>
          have hyb : y ≠ b := fun h => hb (h ▸ List.mem_cons_self _ _)
          simp only [List.zip_cons_cons, List.map_cons]
          rw [List.filter_cons_of_neg (by simp [hyb])]
          exact ih l2 (fun h => hb (List.mem_cons_of_mem _ h))

theorem zipAccounts_filter_singleton (l1 l2 : List ℕ) (hnd : l2.Nodup)
    (a b : ℕ) (hmem : (a, b) ∈ l1.zip l2) :
    ((l1.zip l2).map
        (fun p : ℕ × ℕ => (⟨p.1, p.2⟩ : MappingAccountK))).filter
      (fun x => x.next_mapping_account_key = b) = [⟨a, b⟩] := by
  induction l1 generalizing l2 with
  | nil => simp at hmem
  | cons x l1 ih =>
      cases l2 with
      | nil => simp at hmem
      | cons y l2 =>
          rcases List.nodup_cons.mp hnd with ⟨hy, hnd2⟩
          simp only [List.zip_cons_cons, List.mem_cons] at hmem
          simp only [List.zip_cons_cons, List.map_cons]
          rcases hmem with heq | hmem2
          · injection heq with h1 h2
            subst h1
            subst h2
            rw [List.filter_cons_of_pos (by simp)]
            rw [zipAccounts_filter_nil l1 l2 b hy]
          · have hb2 : b ∈ l2 := (List.of_mem_zip hmem2).2
            have hyb : y ≠ b := fun h => hy (h ▸ hb2)
            rw [List.filter_cons_of_neg (by simp [hyb])]
            exact ih l2 hnd2 hmem2

/-- The second loop of `sort_mapping_account_keys`, run for one step per
element of `l ++ [c]` starting from `c`, reproduces `l ++ [c]` whenever
the reverse-link map sends each element to its predecessor. -/
theorem walkChain_chain (prev : ℕ → Option ℕ) (l : List ℕ) :
    ∀ (c : ℕ),
      List.Chain' (fun a b => prev b = some a) (l ++ [c]) →
      walkChain prev (l.length + 1) c = l ++ [c] := by
  induction l using List.reverseRecOn with
  | nil =>
      intro c _
      rfl
  | append_singleton l b ih =>
      intro c hchain
      have hR : prev c = some b := by
        rcases List.chain'_append.mp hchain with ⟨_, _, hlink⟩
        exact hlink b (by simp) c (by simp)
      have hchain2 : List.Chain' (fun a b => prev b = some a) (l ++ [b]) :=
        (List.chain'_append.mp hchain).1
      have hlen : (l ++ [b]).length + 1 = (l.length + 1) + 1 := by simp
      rw [hlen, walkChain_succ]
      have hstep : walkStep prev c = b := by simp [walkStep, hR]
      rw [hstep, ih b hchain2]

/-- Claim C6: for every valid linked list of mapping records — keys
`ks` distinct and nonzero, each record's next key pointing to the
following key, the last record's next key zero — applied to any
permutation of the records, `sort_mapping_account_keys` returns exactly
the head-to-tail key sequence `ks` (head first, the zero-next tail
last). -/
theorem sortMappingAccountKeys_valid_chain (ks : List ℕ)
    (accounts : List MappingAccountK) (hne : ks ≠ []) (hnd : ks.Nodup)
    (h0 : 0 ∉ ks)
    (hp : accounts.Perm ((ks.zip (ks.tail ++ [0])).map
      (fun p : ℕ × ℕ => (⟨p.1, p.2⟩ : MappingAccountK)))) :
    sortMappingAccountKeys accounts = .ok ks := by
  have hlen0 : 0 < ks.length := List.length_pos.mpr hne
  have hlen2 : (ks.tail ++ [0]).length = ks.length := by
    simp
    omega
  have hndnx : (ks.tail ++ [0]).Nodup := by
    rw [List.nodup_append]
    refine ⟨(List.tail_sublist ks).nodup hnd, List.nodup_singleton _, ?_⟩
    intro a ha hb
    have : a = 0 := by simpa using hb
    subst this
    exact h0 (List.mem_of_mem_tail ha)
  have htransfer : ∀ a b, (a, b) ∈ ks.zip (ks.tail ++ [0]) →
      accounts.filter (fun x => x.next_mapping_account_key = b) =
        [⟨a, b⟩] := by
    intro a b hmem
    have hsing := zipAccounts_filter_singleton ks (ks.tail ++ [0]) hndnx
      a b hmem
    have hperm := hp.filter (fun x => x.next_mapping_account_key = b)
    rw [hsing] at hperm
    exact List.perm_singleton.mp hperm
  have hprevEq : ∀ a b, (a, b) ∈ ks.zip (ks.tail ++ [0]) →
      prevKeysGet accounts b = some a := by
    intro a b hmem
    unfold prevKeysGet
    rw [htransfer a b hmem]
    rfl
  have hchain : List.Chain'
      (fun a b => prevKeysGet accounts b = some a) ks := by
    rw [List.chain'_iff_get]
    intro i hi
    have hkslen : i < ks.length := by omega
    have hks1 : i + 1 < ks.length := by omega
    have htl : i < ks.tail.length := by
      simp
      omega
    have hzipi : i < (ks.zip (ks.tail ++ [0])).length := by
      rw [List.length_zip, hlen2]
      omega
    have hget2 : (ks.tail ++ [0])[i] = ks[i + 1] := by
      rw [List.getElem_append_left htl]
      simp
    have hget : (ks.zip (ks.tail ++ [0]))[i] = (ks[i], ks[i + 1]) := by
      rw [List.getElem_zip, hget2]
    have hmem : (ks[i], ks[i + 1]) ∈ ks.zip (ks.tail ++ [0]) := by
      rw [← hget]
      exact List.getElem_mem _
    simp only [List.get_eq_getElem]
    exact hprevEq _ _ hmem
  have hlastmem : (ks[ks.length - 1], 0) ∈ ks.zip (ks.tail ++ [0]) := by
    have hi : ks.length - 1 < (ks.zip (ks.tail ++ [0])).length := by
      rw [List.length_zip, hlen2]
      omega
    have htlen : ks.tail.length ≤ ks.length - 1 := by simp
    have h2 : (ks.tail ++ [0])[ks.length - 1] = 0 := by
      rw [List.getElem_append_right htlen]
      simp
    have hg : (ks.zip (ks.tail ++ [0]))[ks.length - 1] =
        (ks[ks.length - 1], 0) := by
      rw [List.getElem_zip, h2]
    rw [← hg]
    exact List.getElem_mem _
  have hlastmem2 : (ks.getLast hne, 0) ∈ ks.zip (ks.tail ++ [0]) := by
    rw [List.getLast_eq_getElem]
    exact hlastmem
  have hlastKey : lastKeyOf accounts = some (ks.getLast hne) := by
    unfold lastKeyOf
    rw [htransfer _ 0 hlastmem2]
    rfl
  have hlenacc : accounts.length = ks.length := by
    rw [hp.length_eq]
    simp [hlen2]
  have hne2 : accounts.isEmpty = false := by
    have hn : accounts ≠ [] := by
      intro h
      rw [h] at hlenacc
      simp at hlenacc
      omega
    simpa [List.isEmpty_iff] using hn
  have hdecomp : ks.dropLast ++ [ks.getLast hne] = ks :=
    List.dropLast_append_getLast hne
  have hwalk := walkChain_chain (prevKeysGet accounts) ks.dropLast
    (ks.getLast hne) (by rw [hdecomp]; exact hchain)
  have hfinal : walkChain (prevKeysGet accounts) accounts.length
      (ks.getLast hne) = ks := by
    have h1 : accounts.length = ks.dropLast.length + 1 := by
      rw [hlenacc]
      simp
      omega
    rw [h1, hwalk, hdecomp]
  simp only [sortMappingAccountKeys, hne2, Bool.false_eq_true, if_false,
    hlastKey, hfinal]

/-- Witness for `sortMappingAccountKeys_valid_chain`: the 3-node chain
`7 → 8 → 9 → 0` handed over in scrambled order comes back as
`[7, 8, 9]`. -/
theorem sortMappingAccountKeys_valid_chain_witness :
    sortMappingAccountKeys [⟨9, 0⟩, ⟨7, 8⟩, ⟨8, 9⟩] = .ok [7, 8, 9] :=
  sortMappingAccountKeys_valid_chain [7, 8, 9] [⟨9, 0⟩, ⟨7, 8⟩, ⟨8, 9⟩]
    (by decide) (by decide) (by decide) (by decide)
